import Mathlib

set_option maxHeartbeats 1000000

namespace PitchDetector

/-!
Shallow embedding of the real-time pitch pipeline of the `pitch-detector`
repository: the note segmenter (`generateMidiSegments` on the demo page), the
worker's frame accumulator and model-output selection
(`pitchDetectionWorker.ts`), the exponential pitch smoother
(`pitchDetectionService.ts`), the note utilities (`midiUtils.ts`) and the
pause-adjusted clock of the demo page.  JavaScript numbers are modelled as
exact rationals where the code only uses field arithmetic and comparisons, and
as real numbers where the code uses `Math.log2` / `Math.pow`.
-/

/-! Section: note segmenter (`generateMidiSegments`).  All arithmetic in the
segmenter is field arithmetic and order comparisons, so it is embedded over ℚ
and stays fully executable. -/

/-- The segmentation hyperparameters (the signals read by
`generateMidiSegments`: `confidenceThreshold`, `pitchChangeThreshold`,
`minNoteDuration`, `maxGapForMerge`, `pitchDiffForMerge`). -/
structure SegConfig where
  confidenceThreshold : ℚ
  pitchChangeThreshold : ℚ
  minNoteDuration : ℚ
  maxGapForMerge : ℚ
  pitchDiffForMerge : ℚ
deriving DecidableEq

/-- `PitchHistoryPoint` of the demo page: `x` is the adjusted-clock timestamp,
`y` the rounded MIDI note (unused by segmentation), `confidence` the detection
confidence and `continuousMidi` the continuous MIDI value (`null` when
unvoiced; a non-finite value cannot occur in the exact-rational model, so the
source's `Number.isFinite` guard is identically true here). -/
structure PitchHistoryPoint where
  x : ℚ
  y : Option ℤ
  confidence : ℚ
  continuousMidi : Option ℚ
deriving DecidableEq

/-- An element of `currentSegmentPoints` in `generateMidiSegments`:
`{ x, continuousMidi, confidence }` of a voiced point. -/
structure SegPoint where
  x : ℚ
  continuousMidi : ℚ
  confidence : ℚ
deriving DecidableEq

/-- `MidiSegment` of the demo page. -/
structure MidiSegment where
  startTime : ℚ
  endTime : ℚ
  duration : ℚ
  avgContinuousMidi : Option ℚ
  avgConfidence : ℚ
deriving DecidableEq

/-- The close-current-run block of `generateMidiSegments` (inlined three times
in the source: on a pitch jump, on an unvoiced point, and at end of history):
if the run is nonempty and `duration = endTime - startTime` is at least
`minNoteDuration`, a segment carrying the arithmetic means of the run's
`continuousMidi` and `confidence` values is appended to the accumulator.  The
source reads `currentSegmentStartTime!` only when `currentSegmentPoints` is
nonempty, which the `getLast?` match reproduces. -/
def closeRun (cfg : SegConfig) (runStart : ℚ) (pts : List SegPoint)
    (acc : List MidiSegment) : List MidiSegment :=
  match pts.getLast? with
  | none => acc
  | some lastPt =>
    let endTime := lastPt.x
    let duration := endTime - runStart
    if cfg.minNoteDuration ≤ duration then
      acc ++ [{ startTime := runStart, endTime := endTime, duration := duration,
                avgContinuousMidi :=
                  some ((pts.map SegPoint.continuousMidi).sum / (pts.length : ℚ)),
                avgConfidence := (pts.map SegPoint.confidence).sum / (pts.length : ℚ) }]
    else acc

/-- Pass 1 of `generateMidiSegments` (the `for` loop over `history` plus the
final close): scans points in order, maintaining the current run
(`currentSegmentStartTime`, `currentSegmentPoints`) and the emitted
`potentialSegments`.  A point is voiced when
`confidence >= confidenceThreshold` and `continuousMidi` is present; a pitch
jump of more than `pitchChangeThreshold * 0.75` closes the run and starts a
new one at the point; an unvoiced point closes the run (the source resets
`currentSegmentStartTime` to `null`, modelled by the junk value `0`, which is
never read while the run is empty). -/
def segmentationPass (cfg : SegConfig) :
    ℚ → List SegPoint → List MidiSegment → List PitchHistoryPoint → List MidiSegment
  | runStart, runPts, acc, [] => closeRun cfg runStart runPts acc
  | runStart, runPts, acc, p :: rest =>
    match p.continuousMidi with
    | some m =>
      if cfg.confidenceThreshold ≤ p.confidence then
        match runPts.getLast? with
        | none =>
          segmentationPass cfg p.x [⟨p.x, m, p.confidence⟩] acc rest
        | some lastPt =>
          if cfg.pitchChangeThreshold * (3 / 4) < |m - lastPt.continuousMidi| then
            segmentationPass cfg p.x [⟨p.x, m, p.confidence⟩]
              (closeRun cfg runStart runPts acc) rest
          else
            segmentationPass cfg runStart (runPts ++ [⟨p.x, m, p.confidence⟩]) acc rest
      else
        segmentationPass cfg 0 [] (closeRun cfg runStart runPts acc) rest
    | none =>
      segmentationPass cfg 0 [] (closeRun cfg runStart runPts acc) rest

/-- The list `potentialSegments` computed by pass 1 of `generateMidiSegments`
over a full history (initial state: no current run, no emitted segments). -/
def potentialSegmentsOf (cfg : SegConfig) (history : List PitchHistoryPoint) :
    List MidiSegment :=
  segmentationPass cfg 0 [] [] history

/-- One merge decision of pass 2 of `generateMidiSegments`: `some merged` when
`curr` is merged into the running last segment `prev`, `none` when `curr` is
pushed unmerged.  The source merges when both `avgContinuousMidi` values are
present (`Number.isFinite` is identically true over ℚ), the gap
`curr.startTime - prev.endTime` is strictly between `0` and `maxGapForMerge`,
the pitch difference is below `pitchDiffForMerge * 0.75`, and
`totalPointsDuration = prev.duration + curr.duration` is positive; the merged
segment keeps `prev.startTime`, takes `curr.endTime`, spans
`prev.duration + gap + curr.duration`, and duration-weights the two averages
with `prev.duration` and `curr.duration` (the gap excluded). -/
def mergeStep (cfg : SegConfig) (prev curr : MidiSegment) : Option MidiSegment :=
  match prev.avgContinuousMidi, curr.avgContinuousMidi with
  | some prevMidi, some currMidi =>
    let gap := curr.startTime - prev.endTime
    if 0 < gap ∧ gap < cfg.maxGapForMerge ∧
        |currMidi - prevMidi| < cfg.pitchDiffForMerge * (3 / 4) then
      let totalPointsDuration := prev.duration + curr.duration
      if 0 < totalPointsDuration then
        some { prev with
               endTime := curr.endTime,
               duration := prev.duration + gap + curr.duration,
               avgContinuousMidi :=
                 some ((prevMidi * prev.duration + currMidi * curr.duration)
                   / totalPointsDuration),
               avgConfidence :=
                 (prev.avgConfidence * prev.duration + curr.avgConfidence * curr.duration)
                   / totalPointsDuration }
      else none
    else none
  | _, _ => none

/-- Pass 2 of `generateMidiSegments`: walks `potentialSegments` in order and
either replaces the running last segment of `mergedSegments` with the merged
segment or appends the current segment unmerged. -/
def mergePass (cfg : SegConfig) : List MidiSegment → List MidiSegment
  | [] => []
  | s :: rest =>
    rest.foldl (fun acc curr =>
      match acc.getLast? with
      | none => [curr]
      | some prev =>
        match mergeStep cfg prev curr with
        | some merged => acc.dropLast ++ [merged]
        | none => acc ++ [curr]) [s]

/-- The segment list computed by `generateMidiSegments` for a history of at
least two points: pass 1 followed by pass 2. -/
def segmentsOf (cfg : SegConfig) (history : List PitchHistoryPoint) :
    List MidiSegment :=
  mergePass cfg (potentialSegmentsOf cfg history)

/-- The full stateful `generateMidiSegments` call: given the previously stored
segment list (the `segmentedNotes` signal), a history of fewer than two points
returns early and leaves the stored list unchanged (the source comments
"Keep existing segments if history is too short"); otherwise the stored list
is replaced by the recomputed segments. -/
def generateMidiSegments (cfg : SegConfig) (stored : List MidiSegment)
    (history : List PitchHistoryPoint) : List MidiSegment :=
  if history.length < 2 then stored else segmentsOf cfg history

/-! Section: the worker's frame accumulator (`self.onmessage`, case
`audioData`, in `pitchDetectionWorker.ts`).  Sample values are never inspected,
so the buffer is embedded generically over the sample type. -/

/-- The TF model input size (`NUM_INPUT_SAMPLES`). -/
def NUM_INPUT_SAMPLES : ℕ := 1024

/-- The worker's buffering state: `sampleBuffer` holds the `bufferPos` samples
written so far (the unwritten tail of the fixed `Float32Array` is not
observable), and `submitted` records, in order, every full window handed to
`runModel`. -/
structure WorkerState (α : Type) where
  sampleBuffer : List α
  submitted : List (List α)
deriving DecidableEq

/-- The `while` loop of the worker's `audioData` handler: copies
`min(remainingBufferSpace, remaining samples)` samples into the buffer, and
when the buffer reaches `NUM_INPUT_SAMPLES` runs the model (only when the
model is loaded; the filled window is dropped otherwise) and resets the write
cursor to zero.  The extra guard returning `s` when the buffer is already full
is unreachable from states with `sampleBuffer.length < NUM_INPUT_SAMPLES`
(the source's loop would not terminate there either). -/
def handleAudioData (loaded : Bool) : WorkerState α → List α → WorkerState α
  | s, [] => s
  | s, a :: rest0 =>
    if NUM_INPUT_SAMPLES ≤ s.sampleBuffer.length then s
    else
      let audioData := a :: rest0
      let chunkSize := min (NUM_INPUT_SAMPLES - s.sampleBuffer.length) audioData.length
      let buf2 := s.sampleBuffer ++ audioData.take chunkSize
      let rest := audioData.drop chunkSize
      if buf2.length = NUM_INPUT_SAMPLES then
        handleAudioData loaded
          ⟨[], if loaded then s.submitted ++ [buf2] else s.submitted⟩ rest
      else
        handleAudioData loaded ⟨buf2, s.submitted⟩ rest
termination_by _ chunk => chunk.length
decreasing_by
  all_goals
    simp only [List.length_drop, List.length_cons]
    omega

/-- Delivery of a sequence of `audioData` messages to a fresh worker. -/
def processChunks (loaded : Bool) (chunks : List (List α)) : WorkerState α :=
  chunks.foldl (handleAudioData loaded) ⟨[], []⟩

/-! Section: model-output selection (`runModel` / `getPitchHz` in
`pitchDetectionWorker.ts`). -/

/-- Minimum confidence level to consider a pitch valid (`CONF_THRESHOLD`). -/
def CONF_THRESHOLD : ℚ := 0.8

/-- Pitch tuning offset (`PT_OFFSET`). -/
def PT_OFFSET : ℚ := 25.58

/-- Pitch tuning slope (`PT_SLOPE`). -/
def PT_SLOPE : ℚ := 63.07

/-- `getPitchHz`: converts a model pitch prediction to Hertz,
`fmin * 2 ^ ((modelPitch * PT_SLOPE + PT_OFFSET) / bins_per_octave)` with
`fmin = 10` and `bins_per_octave = 12`.  `Math.pow` with a fractional exponent
is embedded as the real power function. -/
noncomputable def getPitchHz (modelPitch : ℚ) : ℝ :=
  let fmin : ℝ := 10
  let bins_per_octave : ℝ := 12
  let cqt_bin : ℝ := (modelPitch : ℝ) * (PT_SLOPE : ℝ) + (PT_OFFSET : ℝ)
  fmin * (2 : ℝ) ^ (cqt_bin / bins_per_octave)

/-- The selection loop of `runModel` over the per-bin `(pitch, uncertainty)`
pairs, carrying `bestPitchHz` and `highestConfidence` (initially `null` and
`-1`): a bin replaces the running best exactly when its confidence
`1 - uncertainty` is at least `CONF_THRESHOLD` and strictly above the running
best.  The pitch conversion is a parameter so the loop itself stays
executable. -/
def selectBest {β : Type} (hzOf : ℚ → β) :
    Option β → ℚ → List (ℚ × ℚ) → Option β × ℚ
  | bestPitchHz, highestConfidence, [] => (bestPitchHz, highestConfidence)
  | bestPitchHz, highestConfidence, pu :: rest =>
    let confidence := 1 - pu.2
    if CONF_THRESHOLD ≤ confidence ∧ highestConfidence < confidence then
      selectBest hzOf (some (hzOf pu.1)) confidence rest
    else
      selectBest hzOf bestPitchHz highestConfidence rest

/-- The `pitch` message posted by `runModel`: the loop above over
index-aligned bins (the source indexes `uncertainties[i]` for
`i < pitches.length`; with equal lengths this is the zip), posting the best
pitch and `highestConfidence >= 0 ? highestConfidence : 0`. -/
noncomputable def runModelMessage (pitches uncertainties : List ℚ) : Option ℝ × ℚ :=
  let r := selectBest getPitchHz none (-1) (pitches.zip uncertainties)
  (r.1, if 0 ≤ r.2 then r.2 else 0)

/-! Section: the pitch smoother (`pitchDetectionService.ts`).  `Math.log2`
forces the embedding over ℝ. -/

/-- `getCentsDifference` of the service: `Infinity` (embedded as `none`) on a
nonpositive frequency, otherwise `1200 * log2(f1 / f2)`. -/
noncomputable def getCentsDifference (f1 f2 : ℝ) : Option ℝ :=
  if f1 ≤ 0 ∨ f2 ≤ 0 then none else some (1200 * Real.logb 2 (f1 / f2))

/-- The smoothing update performed by the service's `pitch` message handler on
its `smoothedPitch` state.  A `null` detected pitch clears the state; a first
pitch (`smoothedPitch === null`), an infinite cents difference, a cents
difference strictly above `resetThresholdInCents`, or `alpha == 1` causes a
hard reset to the detected pitch; otherwise the exponential moving average
`detectedPitch * alpha + smoothedPitch * (1 - alpha)` is stored. -/
noncomputable def smootherStep (smoothingFactor resetThresholdInCents : ℝ)
    (smoothedPitch detectedPitch : Option ℝ) : Option ℝ :=
  match detectedPitch with
  | none => none
  | some p =>
    let alpha := 1 - smoothingFactor
    match smoothedPitch with
    | none => some p
    | some s =>
      match getCentsDifference p s with
      | none => some p
      | some c =>
        if resetThresholdInCents < |c| ∨ alpha = 1 then some p
        else some (p * alpha + s * (1 - alpha))

/-- The service's full `pitch` message handler: updates `smoothedPitch` via
`smootherStep` and calls `onPitchUpdate(smoothedPitch, confidence)` — the
result is the new state together with the `(pitch, confidence)` pair handed to
the callback, the observation's confidence forwarded unmodified. -/
noncomputable def handlePitchMessage (smoothingFactor resetThresholdInCents : ℝ)
    (smoothedPitch detectedPitch : Option ℝ) (confidence : ℝ) :
    Option ℝ × Option ℝ × ℝ :=
  let s2 := smootherStep smoothingFactor resetThresholdInCents smoothedPitch detectedPitch
  (s2, s2, confidence)

/-! Section: note utilities (`midiUtils.ts`), over ℝ because of `Math.log2` and
`Math.pow`.  JavaScript `Math.round` rounds half-integers up (towards `+∞`),
exactly the behaviour of Mathlib's `round` (`round x = ⌊x + 1/2⌋`).  The
source's `Number.isFinite` / `Number.isInteger` guards are identically true in
the real-number semantics and are noted where they occur. -/

/-- Reference pitch `A4 = 440` Hz. -/
def A4 : ℝ := 440

/-- MIDI number of A4 (`MIDI_A4 = 69`). -/
def MIDI_A4 : ℝ := 69

/-- The twelve note names (one flat array literal in the source). -/
def noteNames : List String :=
  ["C", "C#", "D", "D#", "E", "F"] ++ ["F#", "G", "G#", "A", "A#", "B"]

/-- `hzToContinuousMidi`: `MIDI_A4 + 12 * log2(hz / A4)`, `null` when `hz` is
`null` or nonpositive. -/
noncomputable def hzToContinuousMidi (hz : Option ℝ) : Option ℝ :=
  match hz with
  | none => none
  | some h =>
    if h ≤ 0 then none
    else some (MIDI_A4 + 12 * Real.logb 2 (h / A4))

/-- `hzToMidi`: same formula rounded with `Math.round`. -/
noncomputable def hzToMidi (hz : Option ℝ) : Option ℤ :=
  match hz with
  | none => none
  | some h =>
    if h ≤ 0 then none
    else some (round (MIDI_A4 + 12 * Real.logb 2 (h / A4)))

/-- `midiToNoteName` on an integral MIDI number (every call site rounds
first, and the source's `isFinite`/`isInteger` guards hold for integers):
`noteNames[midi % 12] + (Math.floor(midi / 12) - 1)`.  `Math.floor` of the
real quotient is floor division and the JavaScript `%` is the truncating
remainder; a negative remainder indexes out of bounds, where JavaScript
produces the string `undefined`. -/
def midiToNoteName (midi : Option ℤ) : String :=
  match midi with
  | none => "N/A"
  | some r =>
    let octave := Int.fdiv r 12 - 1
    let noteIndex := Int.tmod r 12
    (if 0 ≤ noteIndex then noteNames.getD noteIndex.toNat "undefined"
     else "undefined") ++ toString octave

/-- `NoteDetails` of `midiUtils.ts`. -/
structure NoteDetails where
  name : String
  targetHz : ℝ
  centsOffset : ℝ
  midi : Option ℤ
  continuousMidi : Option ℝ

/-- `getNoteDetails`: for a positive frequency, the continuous MIDI number,
its rounding, the name, the target frequency
`A4 * 2 ^ ((roundedMidi - MIDI_A4) / 12)` of the nearest standard note and the
cents offset `1200 * log2(hz / targetHz)`; `null` on `null` or nonpositive
input.  The `isFinite` checks on `continuousMidi`, `targetHz` and
`centsOffset` are identically true over ℝ, and the inner `none` branch is
unreachable for positive input. -/
noncomputable def getNoteDetails (hz : Option ℝ) : Option NoteDetails :=
  match hz with
  | none => none
  | some h =>
    if h ≤ 0 then none
    else
      match hzToContinuousMidi (some h) with
      | none => none
      | some continuousMidi =>
        let roundedMidi : ℤ := round continuousMidi
        let noteName := midiToNoteName (some roundedMidi)
        let targetHz := A4 * (2 : ℝ) ^ (((roundedMidi : ℝ) - MIDI_A4) / 12)
        let centsOffset := 1200 * Real.logb 2 (h / targetHz)
        some { name := noteName, targetHz := targetHz, centsOffset := centsOffset,
               midi := some roundedMidi, continuousMidi := some continuousMidi }

/-- The cents offset of a frequency against the target frequency of an
arbitrary candidate MIDI note `m` — the inverse target-frequency calculation
of the spec's round-trip property, used to state that exactly one candidate is
"nearest". -/
noncomputable def centsOffsetOfNote (h : ℝ) (m : ℤ) : ℝ :=
  1200 * Real.logb 2 (h / (A4 * (2 : ℝ) ^ (((m : ℝ) - MIDI_A4) / 12)))

/-! Section: the demo page's pause-adjusted clock.  Wall-clock instants
(`Date.now()`, milliseconds) are integers. -/

/-- The pause-tracking state of the demo page: the signals `pauseOffset`
(cumulative paused duration) and `pauseStartTime` (wall-clock instant of the
pending pause, `0` when none). -/
structure DemoClockState where
  pauseOffset : ℤ
  pauseStartTime : ℤ
deriving DecidableEq

/-- `getAdjustedNow`: `Date.now() - pauseOffset()`, with the current wall
clock passed explicitly. -/
def getAdjustedNow (now : ℤ) (s : DemoClockState) : ℤ :=
  now - s.pauseOffset

/-- The pause bookkeeping of `stopProcessing`: records the wall-clock pause
start (`setPauseStartTime(Date.now())`) and deliberately does not touch
`pauseOffset`. -/
def stopProcessing (now : ℤ) (s : DemoClockState) : DemoClockState :=
  { s with pauseStartTime := now }

/-- The pause bookkeeping of `startProcessing`: when a pause is pending
(`pauseStartTime > 0`), adds the elapsed wall-clock pause duration to
`pauseOffset` and clears the marker; otherwise leaves the state unchanged. -/
def startProcessing (now : ℤ) (s : DemoClockState) : DemoClockState :=
  if 0 < s.pauseStartTime then
    { pauseOffset := s.pauseOffset + (now - s.pauseStartTime), pauseStartTime := 0 }
  else s

/-! Section: theorems about the adjusted clock (claim C6). -/

/-- C6: the adjusted clock satisfies `adjustedNow() = wallClockNow -
pauseOffset`; `stopProcessing` records the wall-clock pause start and the next
`startProcessing` adds exactly the elapsed wall-clock pause duration to
`pauseOffset` and clears the marker; hence adjusted readings are non-decreasing
in the wall clock, the reading at the resume instant equals the reading at the
pause instant (no advance across the pause), and after a five-second real pause
the next capture, `d` milliseconds after resume, is timestamped exactly `d`
after the last pre-pause instant — no five-second gap. -/
theorem adjustedClock_pause_resume_contiguous :
    (∀ (s : DemoClockState) (t : ℤ), getAdjustedNow t s = t - s.pauseOffset)
    ∧ (∀ (s : DemoClockState) (t t' : ℤ), t ≤ t' →
        getAdjustedNow t s ≤ getAdjustedNow t' s)
    ∧ (∀ (s : DemoClockState) (t₁ : ℤ), (stopProcessing t₁ s).pauseStartTime = t₁
        ∧ (stopProcessing t₁ s).pauseOffset = s.pauseOffset)
    ∧ (∀ (s : DemoClockState) (t₁ t₂ : ℤ), 0 < t₁ →
        (startProcessing t₂ (stopProcessing t₁ s)).pauseOffset
            = s.pauseOffset + (t₂ - t₁)
        ∧ (startProcessing t₂ (stopProcessing t₁ s)).pauseStartTime = 0)
    ∧ (∀ (s : DemoClockState) (t₁ t₂ : ℤ), 0 < t₁ →
        getAdjustedNow t₂ (startProcessing t₂ (stopProcessing t₁ s))
          = getAdjustedNow t₁ s)
    ∧ (∀ (s : DemoClockState) (t₁ d : ℤ), 0 < t₁ →
        getAdjustedNow (t₁ + 5000 + d)
            (startProcessing (t₁ + 5000) (stopProcessing t₁ s))
          = getAdjustedNow t₁ s + d) := by
  refine ⟨fun s t => rfl, fun s t t' h => ?_, fun s t₁ => ⟨rfl, rfl⟩, ?_, ?_, ?_⟩
  · simp only [getAdjustedNow]
    omega
  · intro s t₁ t₂ h₁
    simp [startProcessing, stopProcessing, h₁]
  · intro s t₁ t₂ h₁
    simp only [getAdjustedNow, startProcessing, stopProcessing, h₁, if_pos]
    omega
  · intro s t₁ d h₁
    simp only [getAdjustedNow, startProcessing, stopProcessing, h₁, if_pos]
    omega

/-- Witness for C6 at a concrete pause/resume: pausing at wall time 1000 and
resuming 5000 ms later leaves the adjusted reading unchanged, and a capture 64
ms after resume lands 64 ms after the pause instant. -/
theorem adjustedClock_pause_resume_contiguous_witness :
    (0 : ℤ) < 1000
    ∧ getAdjustedNow 6000 (startProcessing 6000 (stopProcessing 1000 ⟨0, 0⟩)) =
        getAdjustedNow 1000 ⟨0, 0⟩
    ∧ getAdjustedNow (1000 + 5000 + 64)
        (startProcessing (1000 + 5000) (stopProcessing 1000 ⟨0, 0⟩)) =
        getAdjustedNow 1000 ⟨0, 0⟩ + 64 :=
  ⟨by decide,
   adjustedClock_pause_resume_contiguous.2.2.2.2.1 ⟨0, 0⟩ 1000 6000 (by decide),
   adjustedClock_pause_resume_contiguous.2.2.2.2.2 ⟨0, 0⟩ 1000 64 (by decide)⟩

/-! Section: theorems about the smoother (claims C1 and C8). -/

/-- C1: characterization of one smoother update on positive frequencies (the
only ones the worker ever posts).  A `null` detected pitch stores `null`; with
`alpha = 1 - smoothingFactor` and `centsDiff = |1200 * log2(p / s)|` (infinite
when no smoothed pitch is stored), the stored value becomes exactly `p` in the
branch where the previous value is `null` or `centsDiff > resetThresholdCents`
or `alpha = 1`, and otherwise becomes the blend
`p * alpha + s * (1 - alpha)`; the observation's confidence reaches the update
callback unmodified. -/
theorem smoother_update_characterization
    (sf rt p s conf : ℝ) (hp : 0 < p) (hs : 0 < s) :
    (∀ sm, smootherStep sf rt sm none = none)
    ∧ smootherStep sf rt none (some p) = some p
    ∧ smootherStep sf rt (some s) (some p)
        = (if rt < |1200 * Real.logb 2 (p / s)| ∨ (1 - sf) = 1 then some p
           else some (p * (1 - sf) + s * (1 - (1 - sf))))
    ∧ (∀ sm dp, handlePitchMessage sf rt sm dp conf
        = (smootherStep sf rt sm dp, smootherStep sf rt sm dp, conf)) := by
  refine ⟨fun sm => by cases sm <;> rfl, rfl, ?_, fun sm dp => rfl⟩
  simp only [smootherStep, getCentsDifference, hp.not_le, hs.not_le, or_self,
    if_false]

/-- Witness for C1: a jump from 440 Hz to 880 Hz (1200 cents) with reset
threshold 100 hard-resets the smoothed pitch to 880. -/
theorem smoother_update_characterization_witness :
    (0 : ℝ) < 880 ∧ (0 : ℝ) < 440
    ∧ smootherStep (1/2) 100 (some 440) (some 880) = some 880 := by
  refine ⟨by norm_num, by norm_num, ?_⟩
  have h := (smoother_update_characterization (1/2) 100 880 440 0
    (by norm_num) (by norm_num)).2.2.1
  rw [h, if_pos]
  left
  have h2 : (880 : ℝ) / 440 = 2 := by norm_num
  rw [h2, Real.logb_self_eq_one (by norm_num)]
  rw [abs_of_nonneg (by norm_num)]
  norm_num

/-- The cents distance from 440 Hz to 466.16 Hz is at most 100: `466.16 / 440`
is (just) below a true equal-tempered semitone `2 ^ (1/12)`, as the twelfth
powers show. -/
lemma absCents_440_466_le :
    |1200 * Real.logb 2 ((466.16 : ℝ) / 440)| ≤ 100 := by
  have hr : (466.16 : ℝ) / 440 = 5827 / 5500 := by norm_num
  have hnn : 0 ≤ Real.logb 2 ((466.16 : ℝ) / 440) := by
    rw [hr]
    exact Real.logb_nonneg (by norm_num) (by norm_num)
  have h12 : ((2 : ℝ) ^ ((1 : ℝ) / 12)) ^ (12 : ℕ) = 2 := by
    rw [← Real.rpow_natCast ((2 : ℝ) ^ ((1 : ℝ) / 12)) 12,
      ← Real.rpow_mul (by norm_num : (0 : ℝ) ≤ 2)]
    norm_num
  have hkey : ((5827 : ℝ) / 5500) ^ (12 : ℕ) ≤ ((2 : ℝ) ^ ((1 : ℝ) / 12)) ^ (12 : ℕ) := by
    rw [h12]
    norm_num
  have hle : Real.logb 2 ((466.16 : ℝ) / 440) ≤ 1 / 12 := by
    rw [hr, Real.logb_le_iff_le_rpow (by norm_num) (by norm_num)]
    exact le_of_pow_le_pow_left₀ (by norm_num)
      (Real.rpow_pos_of_pos (by norm_num) _).le hkey
  rw [abs_of_nonneg (by positivity)]
  nlinarith

/-- Counterexample to C8: feeding the smoother 440 Hz and then 466.16 Hz with
`resetThresholdCents = 100` and `smoothingFactor = 1/2` does NOT hard-reset:
the cents difference is about 99.986, strictly below the threshold, so the
exponential moving average runs and the stored pitch is 453.08, not 466.16. -/
theorem smoother_jump_boundary_counterexample :
    smootherStep (1/2) 100 none (some 440) = some 440
    ∧ smootherStep (1/2) 100 (some 440) (some 466.16) = some (453.08 : ℝ)
    ∧ smootherStep (1/2) 100 (some 440) (some 466.16) ≠ some (466.16 : ℝ) := by
  have hg : getCentsDifference (466.16 : ℝ) 440
      = some (1200 * Real.logb 2 ((466.16 : ℝ) / 440)) := by
    unfold getCentsDifference
    rw [if_neg]
    push_neg
    exact ⟨by norm_num, by norm_num⟩
  have hstep : smootherStep (1/2) 100 (some 440) (some 466.16)
      = some ((466.16 : ℝ) * (1 - 1/2) + 440 * (1 - (1 - 1/2))) := by
    simp only [smootherStep, hg]
    rw [if_neg]
    push_neg
    exact ⟨absCents_440_466_le, by norm_num⟩
  have hval : (466.16 : ℝ) * (1 - 1/2) + 440 * (1 - (1 - 1/2)) = 453.08 := by
    norm_num
  refine ⟨rfl, by rw [hstep, hval], ?_⟩
  rw [hstep, hval]
  simp only [ne_eq, Option.some.injEq]
  norm_num

/-- C8 as amended: with `resetThresholdCents = 100` and any
`smoothingFactor` strictly between 0 and 0.999, the first observation 440 Hz
is stored exactly, but the second observation 466.16 Hz is BLENDED, because
its cents distance from 440 is strictly below the 100-cent threshold (466.16
rounds the true semitone 466.1637... down); the stored value becomes
`466.16 * (1 - smoothingFactor) + 440 * smoothingFactor`, which differs from
466.16. -/
theorem smoother_jump_boundary_amended (sf : ℝ) (h0 : 0 < sf) (h1 : sf < 0.999) :
    smootherStep sf 100 none (some 440) = some 440
    ∧ smootherStep sf 100 (some 440) (some 466.16)
        = some ((466.16 : ℝ) * (1 - sf) + 440 * sf)
    ∧ smootherStep sf 100 (some 440) (some 466.16) ≠ some (466.16 : ℝ) := by
  have hg : getCentsDifference (466.16 : ℝ) 440
      = some (1200 * Real.logb 2 ((466.16 : ℝ) / 440)) := by
    unfold getCentsDifference
    rw [if_neg]
    push_neg
    exact ⟨by norm_num, by norm_num⟩
  have hstep : smootherStep sf 100 (some 440) (some 466.16)
      = some ((466.16 : ℝ) * (1 - sf) + 440 * (1 - (1 - sf))) := by
    simp only [smootherStep, hg]
    rw [if_neg]
    push_neg
    refine ⟨absCents_440_466_le, fun hc => h0.ne' (by linarith)⟩
  have hval : (466.16 : ℝ) * (1 - sf) + 440 * (1 - (1 - sf))
      = 466.16 * (1 - sf) + 440 * sf := by ring
  refine ⟨rfl, by rw [hstep, hval], ?_⟩
  rw [hstep, hval]
  simp only [ne_eq, Option.some.injEq]
  intro heq
  nlinarith

/-- Witness for the amended C8 at `smoothingFactor = 1/2`. -/
theorem smoother_jump_boundary_amended_witness :
    (0 : ℝ) < 1/2 ∧ (1/2 : ℝ) < 0.999
    ∧ smootherStep (1/2 : ℝ) 100 (some 440) (some 466.16)
        = some ((466.16 : ℝ) * (1 - 1/2) + 440 * (1/2)) :=
  ⟨by norm_num, by norm_num,
   (smoother_jump_boundary_amended (1/2) (by norm_num) (by norm_num)).2.1⟩

/-! Section: theorems about `getNoteDetails` (claims C7 and C10). -/

/-- On a positive frequency, `getNoteDetails` returns the record built from
the continuous MIDI value `c = 69 + 12 * log2(h / 440)`: its rounding, the
name, the nearest note's target frequency, and the cents offset against that
target (which coincides with `centsOffsetOfNote` at the rounded note). -/
lemma getNoteDetails_pos (h : ℝ) (hp : 0 < h) :
    getNoteDetails (some h) = some
      { name := midiToNoteName (some (round (69 + 12 * Real.logb 2 (h / 440)))),
        targetHz := 440 * (2 : ℝ) ^
          ((((round (69 + 12 * Real.logb 2 (h / 440)) : ℤ) : ℝ) - 69) / 12),
        centsOffset := centsOffsetOfNote h (round (69 + 12 * Real.logb 2 (h / 440))),
        midi := some (round (69 + 12 * Real.logb 2 (h / 440))),
        continuousMidi := some (69 + 12 * Real.logb 2 (h / 440)) } := by
  unfold getNoteDetails hzToContinuousMidi centsOffsetOfNote A4 MIDI_A4
  simp only [if_neg hp.not_le]

/-- The cents offset of a frequency against candidate note `m` is `100` times
the distance from the continuous MIDI value to `m`. -/
lemma centsOffsetOfNote_eq (h : ℝ) (hp : 0 < h) (m : ℤ) :
    centsOffsetOfNote h m = 100 * ((69 + 12 * Real.logb 2 (h / 440)) - m) := by
  unfold centsOffsetOfNote A4 MIDI_A4
  have hy : (0 : ℝ) < (2 : ℝ) ^ (((m : ℝ) - 69) / 12) :=
    Real.rpow_pos_of_pos (by norm_num) _
  rw [← div_div, Real.logb_div (by positivity) hy.ne',
    Real.logb_rpow (by norm_num) (by norm_num)]
  ring

/-- Subtracting the JavaScript-style rounding leaves a remainder in
`[-1/2, 1/2)` (half-integers round up). -/
lemma sub_round_mem (c : ℝ) : -(1/2) ≤ c - round c ∧ c - round c < 1/2 := by
  rw [round_eq]
  constructor
  · have := Int.floor_le (c + 1/2)
    linarith
  · have := Int.lt_floor_add_one (c + 1/2)
    linarith

/-- `round c` is the unique integer whose remainder lies in `[-1/2, 1/2)`. -/
lemma eq_round_iff_sub_mem (c : ℝ) (m : ℤ) :
    (-(1/2) ≤ c - m ∧ c - m < 1/2) ↔ m = round c := by
  rw [round_eq, eq_comm, Int.floor_eq_iff]
  constructor <;> intro hh <;> constructor <;> push_cast at * <;> linarith [hh.1, hh.2]

/-- C7 as amended: for every frequency `h > 0`, `getNoteDetails` identifies a
nearest MIDI note with `targetHz = 440 * 2 ^ ((midi - 69) / 12)` and
`centsOffset = 1200 * log2(h / targetHz)`; the round trip
`targetHz * 2 ^ (centsOffset / 1200) = h` holds exactly, and `centsOffset`
lies in the half-open interval `[-50, 50)` — not the claimed `(-50, 50]`,
since `Math.round` sends half-integers up — for exactly one candidate MIDI
note, namely the returned one. -/
theorem getNoteDetails_roundtrip_window (h : ℝ) (hp : 0 < h) :
    ∃ d, getNoteDetails (some h) = some d
      ∧ d.targetHz * (2 : ℝ) ^ (d.centsOffset / 1200) = h
      ∧ (-50 ≤ d.centsOffset ∧ d.centsOffset < 50)
      ∧ ∀ m : ℤ, (-50 ≤ centsOffsetOfNote h m ∧ centsOffsetOfNote h m < 50)
          ↔ d.midi = some m := by
  refine ⟨_, getNoteDetails_pos h hp, ?_, ?_, ?_⟩
  · set r : ℤ := round (69 + 12 * Real.logb 2 (h / 440)) with hr
    show (440 * (2 : ℝ) ^ (((r : ℝ) - 69) / 12)) *
        (2 : ℝ) ^ (centsOffsetOfNote h r / 1200) = h
    have htpos : (0 : ℝ) < 440 * (2 : ℝ) ^ (((r : ℝ) - 69) / 12) := by positivity
    have hdiv : centsOffsetOfNote h r / 1200
        = Real.logb 2 (h / (440 * (2 : ℝ) ^ (((r : ℝ) - 69) / 12))) := by
      unfold centsOffsetOfNote A4 MIDI_A4
      ring
    rw [hdiv, Real.rpow_logb (by norm_num) (by norm_num) (div_pos hp htpos)]
    field_simp
  · show -50 ≤ centsOffsetOfNote h (round (69 + 12 * Real.logb 2 (h / 440)))
        ∧ centsOffsetOfNote h (round (69 + 12 * Real.logb 2 (h / 440))) < 50
    rw [centsOffsetOfNote_eq h hp]
    have := sub_round_mem (69 + 12 * Real.logb 2 (h / 440))
    constructor <;> linarith [this.1, this.2]
  · intro m
    show _ ↔ some (round (69 + 12 * Real.logb 2 (h / 440))) = some m
    rw [centsOffsetOfNote_eq h hp m, Option.some_inj, eq_comm,
      ← eq_round_iff_sub_mem]
    constructor <;> intro hh <;> constructor <;> linarith [hh.1, hh.2]

/-- Witness for C7 at 450 Hz. -/
theorem getNoteDetails_roundtrip_window_witness :
    (0 : ℝ) < 450
    ∧ ∃ d, getNoteDetails (some (450 : ℝ)) = some d
      ∧ d.targetHz * (2 : ℝ) ^ (d.centsOffset / 1200) = 450
      ∧ (-50 ≤ d.centsOffset ∧ d.centsOffset < 50)
      ∧ ∀ m : ℤ, (-50 ≤ centsOffsetOfNote 450 m ∧ centsOffsetOfNote 450 m < 50)
          ↔ d.midi = some m :=
  ⟨by norm_num, getNoteDetails_roundtrip_window 450 (by norm_num)⟩

/-- Counterexample to C7 as stated: at the quarter tone `440 * 2 ^ (1/24)`,
exactly halfway between A4 and A#4, the continuous MIDI value is 69.5,
`Math.round` takes it up to 70, and the resulting cents offset is exactly
`-50`, which lies outside the claimed interval `(-50, 50]`. -/
theorem getNoteDetails_halfway_counterexample :
    ∃ d, getNoteDetails (some ((440 : ℝ) * (2 : ℝ) ^ ((1 : ℝ) / 24))) = some d
      ∧ d.centsOffset = -50
      ∧ ¬(-50 < d.centsOffset ∧ d.centsOffset ≤ 50) := by
  have hf : (0 : ℝ) < (440 : ℝ) * (2 : ℝ) ^ ((1 : ℝ) / 24) := by positivity
  have hc : 69 + 12 * Real.logb 2 ((440 : ℝ) * (2 : ℝ) ^ ((1 : ℝ) / 24) / 440)
      = (139 : ℝ) / 2 := by
    rw [mul_div_cancel_left₀ _ (by norm_num : (440 : ℝ) ≠ 0),
      Real.logb_rpow (by norm_num) (by norm_num)]
    norm_num
  have hround : round ((139 : ℝ) / 2) = 70 := by
    rw [round_eq]
    have : (139 : ℝ) / 2 + 1 / 2 = ((70 : ℤ) : ℝ) := by norm_num
    rw [this, Int.floor_intCast]
  refine ⟨_, getNoteDetails_pos _ hf, ?_, ?_⟩
  · show centsOffsetOfNote _ (round (69 + 12 * Real.logb 2 _)) = -50
    rw [hc, hround, centsOffsetOfNote_eq _ hf, hc]
    norm_num
  · show ¬(-50 < centsOffsetOfNote _ (round (69 + 12 * Real.logb 2 _)) ∧ _ ≤ 50)
    rw [hc, hround, centsOffsetOfNote_eq _ hf, hc]
    norm_num

/-- C10: `getNoteDetails` returns `null` exactly on `null` or nonpositive
input (totality over ℝ replaces "never throwing"), and every non-null result
needs no further guarding: over the real-number semantics all fields are
finite by construction, `continuousMidi` is `69 + 12 * log2(hz / 440)`, and
`midi` is its integer rounding. -/
theorem getNoteDetails_null_guard :
    (∀ hz : Option ℝ, getNoteDetails hz = none ↔ hz = none ∨ ∃ v, hz = some v ∧ v ≤ 0)
    ∧ (∀ v : ℝ, 0 < v → ∃ d, getNoteDetails (some v) = some d
        ∧ d.continuousMidi = some (69 + 12 * Real.logb 2 (v / 440))
        ∧ d.midi = some (round (69 + 12 * Real.logb 2 (v / 440)))) := by
  constructor
  · intro hz
    match hz with
    | none => simp [getNoteDetails]
    | some v =>
      by_cases hv : v ≤ 0
      · simp only [getNoteDetails, if_pos hv]
        simp [hv]
      · push_neg at hv
        rw [getNoteDetails_pos v hv]
        simp [hv.not_le]
  · intro v hv
    exact ⟨_, getNoteDetails_pos v hv, rfl, rfl⟩

/-- Witness for C10 at 440 Hz: the A4 details are fully populated with
continuous MIDI 69 and rounded MIDI 69. -/
theorem getNoteDetails_null_guard_witness :
    (0 : ℝ) < 440
    ∧ ∃ d, getNoteDetails (some (440 : ℝ)) = some d
      ∧ d.continuousMidi = some (69 : ℝ) ∧ d.midi = some (69 : ℤ) := by
  refine ⟨by norm_num, ?_⟩
  obtain ⟨d, hd, hcm, hm⟩ := getNoteDetails_null_guard.2 440 (by norm_num)
  have hval : (69 : ℝ) + 12 * Real.logb 2 ((440 : ℝ) / 440) = 69 := by
    norm_num [Real.logb_one]
  refine ⟨d, hd, ?_, ?_⟩
  · rw [hcm, hval]
  · rw [hm]
    have hcast : (69 : ℝ) + 12 * Real.logb 2 ((440 : ℝ) / 440) = ((69 : ℤ) : ℝ) := by
      rw [hval]; norm_num
    rw [hcast, round_intCast]

/-! Section: theorems about the frame accumulator (claim C4). -/

/-- One `audioData` message preserves the accumulator invariant: the buffer
stays below capacity, with a loaded model the submitted windows followed by
the buffer are exactly the received samples, every submitted window has
exactly `NUM_INPUT_SAMPLES` samples, with an unloaded model nothing is
submitted, and in either case the write cursor position is congruent to the
total number of samples seen modulo the window size (each completed window
resets it to zero). -/
lemma handleAudioData_invariant {α : Type} (loaded : Bool) (s : WorkerState α)
    (chunk : List α) (hs : s.sampleBuffer.length < NUM_INPUT_SAMPLES) :
    ((handleAudioData loaded s chunk).sampleBuffer.length < NUM_INPUT_SAMPLES)
    ∧ (loaded = true →
        (handleAudioData loaded s chunk).submitted.flatten
            ++ (handleAudioData loaded s chunk).sampleBuffer
          = s.submitted.flatten ++ s.sampleBuffer ++ chunk)
    ∧ ((∀ w ∈ s.submitted, w.length = NUM_INPUT_SAMPLES) →
        ∀ w ∈ (handleAudioData loaded s chunk).submitted, w.length = NUM_INPUT_SAMPLES)
    ∧ (loaded = false → (handleAudioData loaded s chunk).submitted = s.submitted)
    ∧ ((handleAudioData loaded s chunk).sampleBuffer.length % NUM_INPUT_SAMPLES
        = (s.sampleBuffer.length + chunk.length) % NUM_INPUT_SAMPLES) := by
  suffices H : ∀ (n : ℕ) (s : WorkerState α) (chunk : List α), chunk.length = n →
      s.sampleBuffer.length < NUM_INPUT_SAMPLES →
      ((handleAudioData loaded s chunk).sampleBuffer.length < NUM_INPUT_SAMPLES)
      ∧ (loaded = true →
          (handleAudioData loaded s chunk).submitted.flatten
              ++ (handleAudioData loaded s chunk).sampleBuffer
            = s.submitted.flatten ++ s.sampleBuffer ++ chunk)
      ∧ ((∀ w ∈ s.submitted, w.length = NUM_INPUT_SAMPLES) →
          ∀ w ∈ (handleAudioData loaded s chunk).submitted,
            w.length = NUM_INPUT_SAMPLES)
      ∧ (loaded = false → (handleAudioData loaded s chunk).submitted = s.submitted)
      ∧ ((handleAudioData loaded s chunk).sampleBuffer.length % NUM_INPUT_SAMPLES
          = (s.sampleBuffer.length + chunk.length) % NUM_INPUT_SAMPLES) by
    exact H chunk.length s chunk rfl hs
  intro n
  induction n using Nat.strong_induction_on with
  | _ n ih =>
    intro s chunk hlen hs
    match chunk with
    | [] =>
      have he : handleAudioData loaded s [] = s := by rw [handleAudioData]
      rw [he]
      exact ⟨hs, fun _ => by simp, fun hw => hw, fun _ => rfl, by simp⟩
    | a :: rest0 =>
      rw [handleAudioData]
      rw [if_neg (not_le.2 hs)]
      simp only []
      set k := min (NUM_INPUT_SAMPLES - s.sampleBuffer.length) (a :: rest0).length
        with hk
      have hk1 : 1 ≤ k := by
        simp only [hk, List.length_cons, le_min_iff]
        omega
      have hkle : k ≤ (a :: rest0).length := min_le_right _ _
      have htk : ((a :: rest0).take k).length = k := List.length_take_of_le hkle
      have hdk : ((a :: rest0).drop k).length = (a :: rest0).length - k :=
        List.length_drop _ _
      have hrec : ((a :: rest0).drop k).length < n := by
        rw [hdk, ← hlen]
        simp only [List.length_cons]
        omega
      by_cases hfull :
          (s.sampleBuffer ++ (a :: rest0).take k).length = NUM_INPUT_SAMPLES
      · rw [if_pos hfull]
        have hstep := ih _ hrec
          ⟨[], if loaded then s.submitted ++ [s.sampleBuffer ++ (a :: rest0).take k]
               else s.submitted⟩
          ((a :: rest0).drop k) rfl (by simp [NUM_INPUT_SAMPLES])
        obtain ⟨h1, h2, h3, h4, h5⟩ := hstep
        refine ⟨h1, ?_, ?_, ?_, ?_⟩
        · intro hl
          rw [h2 hl, hl]
          simp [List.take_append_drop, List.append_assoc]
        · intro hw
          refine h3 ?_
          intro w hwmem
          rcases loaded with _ | _
          · simp only [Bool.false_eq_true, if_false] at hwmem
            exact hw w hwmem
          · simp only [if_true] at hwmem
            rcases List.mem_append.1 hwmem with hmem | hmem
            · exact hw w hmem
            · rw [List.mem_singleton.1 hmem]
              exact hfull
        · intro hl
          rw [h4 hl, hl]
          simp
        · rw [h5]
          rw [List.length_append, htk] at hfull
          simp only [List.length_nil, NUM_INPUT_SAMPLES] at *
          omega
      · rw [if_neg hfull]
        have hlt : (s.sampleBuffer ++ (a :: rest0).take k).length
            < NUM_INPUT_SAMPLES := by
          rw [List.length_append, htk]
          have : k ≤ NUM_INPUT_SAMPLES - s.sampleBuffer.length := min_le_left _ _
          rw [List.length_append, htk] at hfull
          omega
        have hstep := ih _ hrec
          ⟨s.sampleBuffer ++ (a :: rest0).take k, s.submitted⟩
          ((a :: rest0).drop k) rfl hlt
        obtain ⟨h1, h2, h3, h4, h5⟩ := hstep
        refine ⟨h1, ?_, h3, h4, ?_⟩
        · intro hl
          rw [h2 hl]
          simp [List.take_append_drop, List.append_assoc]
        · rw [h5]
          simp only [List.length_append, htk, hdk]
          simp only [List.length_cons, NUM_INPUT_SAMPLES] at *
          omega

/-- Accumulator invariant for a whole message sequence, from an arbitrary
valid starting state. -/
lemma processFrom_invariant {α : Type} (loaded : Bool) (s : WorkerState α)
    (chunks : List (List α)) (hs : s.sampleBuffer.length < NUM_INPUT_SAMPLES) :
    ((chunks.foldl (handleAudioData loaded) s).sampleBuffer.length < NUM_INPUT_SAMPLES)
    ∧ (loaded = true →
        (chunks.foldl (handleAudioData loaded) s).submitted.flatten
            ++ (chunks.foldl (handleAudioData loaded) s).sampleBuffer
          = s.submitted.flatten ++ s.sampleBuffer ++ chunks.flatten)
    ∧ ((∀ w ∈ s.submitted, w.length = NUM_INPUT_SAMPLES) →
        ∀ w ∈ (chunks.foldl (handleAudioData loaded) s).submitted,
          w.length = NUM_INPUT_SAMPLES)
    ∧ (loaded = false →
        (chunks.foldl (handleAudioData loaded) s).submitted = s.submitted)
    ∧ ((chunks.foldl (handleAudioData loaded) s).sampleBuffer.length
          % NUM_INPUT_SAMPLES
        = (s.sampleBuffer.length + chunks.flatten.length) % NUM_INPUT_SAMPLES) := by
  induction chunks generalizing s with
  | nil =>
    exact ⟨hs, fun _ => by simp, fun hw => hw, fun _ => rfl, by simp⟩
  | cons c cs ihc =>
    obtain ⟨g1, g2, g3, g4, g5⟩ := handleAudioData_invariant loaded s c hs
    obtain ⟨h1, h2, h3, h4, h5⟩ := ihc (handleAudioData loaded s c) g1
    refine ⟨h1, ?_, fun hw => h3 (g3 hw), ?_, ?_⟩
    · intro hl
      rw [List.foldl_cons, h2 hl, g2 hl]
      simp [List.append_assoc]
    · intro hl
      rw [List.foldl_cons, h4 hl, g4 hl]
    · rw [List.foldl_cons, h5]
      simp only [List.flatten_cons, List.length_append, NUM_INPUT_SAMPLES] at g5 ⊢
      omega

/-- C4: for every sequence of nonempty audio chunks delivered to the worker's
`audioData` handler with the model loaded, the windows submitted to inference
are exactly the consecutive non-overlapping 1024-sample blocks of the
concatenation of the delivered samples, in order: the submitted windows
followed by the current buffer contents equal all samples received, every
submitted window has exactly 1024 samples, and the write cursor (the buffer
length) is the total sample count modulo 1024, having reset to zero at each
full window.  With the model not loaded, completed windows are discarded but
the cursor behaves identically. -/
theorem frameAccumulator_no_loss :
    (∀ (α : Type) (chunks : List (List α)), (∀ c ∈ chunks, c ≠ []) →
        (processChunks true chunks).submitted.flatten
            ++ (processChunks true chunks).sampleBuffer = chunks.flatten
        ∧ (∀ w ∈ (processChunks true chunks).submitted,
            w.length = NUM_INPUT_SAMPLES)
        ∧ (processChunks true chunks).sampleBuffer.length
            = chunks.flatten.length % NUM_INPUT_SAMPLES)
    ∧ (∀ (α : Type) (chunks : List (List α)),
        (processChunks (α := α) false chunks).submitted = []
        ∧ (processChunks (α := α) false chunks).sampleBuffer.length
            = chunks.flatten.length % NUM_INPUT_SAMPLES) := by
  constructor
  · intro α chunks _
    obtain ⟨h1, h2, h3, _, h5⟩ := processFrom_invariant true
      (⟨[], []⟩ : WorkerState α) chunks (by simp [NUM_INPUT_SAMPLES])
    refine ⟨?_, ?_, ?_⟩
    · simp only [processChunks]
      have := h2 rfl
      simpa using this
    · simp only [processChunks]
      exact h3 (by simp)
    · simp only [processChunks]
      rw [← Nat.mod_eq_of_lt h1, h5]
      simp
  · intro α chunks
    obtain ⟨h1, _, _, h4, h5⟩ := processFrom_invariant false
      (⟨[], []⟩ : WorkerState α) chunks (by simp [NUM_INPUT_SAMPLES])
    refine ⟨?_, ?_⟩
    · simp only [processChunks]
      exact h4 rfl
    · simp only [processChunks]
      rw [← Nat.mod_eq_of_lt h1, h5]
      simp

/-- Witness for C4: two chunks of one and two samples leave all three samples
in the buffer, in order, with nothing yet submitted. -/
theorem frameAccumulator_no_loss_witness :
    (∀ c ∈ ([[0], [1, 2]] : List (List ℕ)), c ≠ [])
    ∧ (processChunks true ([[0], [1, 2]] : List (List ℕ))).submitted.flatten
        ++ (processChunks true ([[0], [1, 2]] : List (List ℕ))).sampleBuffer
        = ([[0], [1, 2]] : List (List ℕ)).flatten :=
  ⟨by decide, (frameAccumulator_no_loss.1 ℕ [[0], [1, 2]] (by decide)).1⟩

/-! Section: theorems about `runModel`'s selection policy (claim C5). -/

/-- Invariant of the selection loop: either no bin passes both the threshold
and the running best — then the carried pair is returned and every accepted
bin is bounded by the carried confidence — or the result is the converted
pitch and confidence of some accepted bin that strictly beats the carried
confidence and dominates every accepted bin. -/
lemma selectBest_spec {β : Type} (hzOf : ℚ → β) (l : List (ℚ × ℚ)) :
    ∀ (best : Option β) (hc : ℚ),
      (selectBest hzOf best hc l = (best, hc)
        ∧ ∀ pu ∈ l, CONF_THRESHOLD ≤ 1 - pu.2 → 1 - pu.2 ≤ hc)
      ∨ (∃ pu ∈ l, CONF_THRESHOLD ≤ 1 - pu.2
          ∧ selectBest hzOf best hc l = (some (hzOf pu.1), 1 - pu.2)
          ∧ hc < 1 - pu.2
          ∧ ∀ qu ∈ l, CONF_THRESHOLD ≤ 1 - qu.2 → 1 - qu.2 ≤ 1 - pu.2) := by
  induction l with
  | nil =>
    intro best hc
    left
    exact ⟨rfl, by simp⟩
  | cons pu rest ih =>
    intro best hc
    by_cases hcond : CONF_THRESHOLD ≤ 1 - pu.2 ∧ hc < 1 - pu.2
    · have hstep : selectBest hzOf best hc (pu :: rest)
          = selectBest hzOf (some (hzOf pu.1)) (1 - pu.2) rest := by
        simp only [selectBest]
        rw [if_pos hcond]
      rcases ih (some (hzOf pu.1)) (1 - pu.2) with ⟨hr, hbound⟩ |
        ⟨qu, hqmem, hqacc, hqr, hqlt, hqmax⟩
      · right
        refine ⟨pu, List.mem_cons_self _ _, hcond.1, ?_, hcond.2, ?_⟩
        · rw [hstep, hr]
        · intro qu hqu hacc
          rcases List.mem_cons.1 hqu with rfl | hqu
          · exact le_refl _
          · exact hbound qu hqu hacc
      · right
        refine ⟨qu, List.mem_cons_of_mem _ hqmem, hqacc, ?_, ?_, ?_⟩
        · rw [hstep, hqr]
        · exact lt_trans hcond.2 hqlt
        · intro ru hru hacc
          rcases List.mem_cons.1 hru with rfl | hru
          · exact le_of_lt hqlt
          · exact hqmax ru hru hacc
    · have hstep : selectBest hzOf best hc (pu :: rest)
          = selectBest hzOf best hc rest := by
        simp only [selectBest]
        rw [if_neg hcond]
      have hpu_bound : CONF_THRESHOLD ≤ 1 - pu.2 → 1 - pu.2 ≤ hc := by
        intro hacc
        by_contra hgt
        exact hcond ⟨hacc, lt_of_not_le hgt⟩
      rcases ih best hc with ⟨hr, hbound⟩ | ⟨qu, hqmem, hqacc, hqr, hqlt, hqmax⟩
      · left
        refine ⟨by rw [hstep, hr], ?_⟩
        intro ru hru hacc
        rcases List.mem_cons.1 hru with rfl | hru
        · exact hpu_bound hacc
        · exact hbound ru hru hacc
      · right
        refine ⟨qu, List.mem_cons_of_mem _ hqmem, hqacc, by rw [hstep, hqr], hqlt, ?_⟩
        intro ru hru hacc
        rcases List.mem_cons.1 hru with rfl | hru
        · exact le_of_lt (lt_of_le_of_lt (hpu_bound hacc) hqlt)
        · exact hqmax ru hru hacc

/-- C5: with equal-length model outputs, `runModel` posts `(null, 0)` when no
bin reaches confidence `1 - uncertainty >= 0.8`; otherwise it posts the
converted pitch and the confidence of an accepted bin of maximum confidence;
and the pitch conversion is `10 * 2 ^ ((p * 63.07 + 25.58) / 12)`. -/
theorem runModel_selection (pitches uncertainties : List ℚ)
    (h : pitches.length = uncertainties.length) :
    ((∀ pu ∈ pitches.zip uncertainties, 1 - pu.2 < CONF_THRESHOLD) →
        runModelMessage pitches uncertainties = (none, 0))
    ∧ ((∃ pu ∈ pitches.zip uncertainties, CONF_THRESHOLD ≤ 1 - pu.2) →
        ∃ pu ∈ pitches.zip uncertainties, CONF_THRESHOLD ≤ 1 - pu.2
          ∧ runModelMessage pitches uncertainties = (some (getPitchHz pu.1), 1 - pu.2)
          ∧ ∀ qu ∈ pitches.zip uncertainties,
              CONF_THRESHOLD ≤ 1 - qu.2 → 1 - qu.2 ≤ 1 - pu.2)
    ∧ (∀ q : ℚ, getPitchHz q
        = 10 * (2 : ℝ) ^ (((q : ℝ) * 63.07 + 25.58) / 12))
    ∧ CONF_THRESHOLD = 0.8 := by
  refine ⟨?_, ?_, ?_, rfl⟩
  · intro hnone
    rcases selectBest_spec getPitchHz (pitches.zip uncertainties) none (-1) with
      ⟨hr, _⟩ | ⟨pu, hmem, hacc, _, _, _⟩
    · simp only [runModelMessage, hr]
      norm_num
    · exact absurd hacc (not_le.2 (hnone pu hmem))
  · intro hsome
    rcases selectBest_spec getPitchHz (pitches.zip uncertainties) none (-1) with
      ⟨_, hbound⟩ | ⟨pu, hmem, hacc, hr, _, hmax⟩
    · obtain ⟨pu, hmem, hacc⟩ := hsome
      have := hbound pu hmem hacc
      have hthr : (CONF_THRESHOLD : ℚ) = 4/5 := by norm_num [CONF_THRESHOLD]
      rw [hthr] at hacc
      linarith
    · refine ⟨pu, hmem, hacc, ?_, hmax⟩
      have hnn : (0 : ℚ) ≤ 1 - pu.2 := by
        have hthr : (CONF_THRESHOLD : ℚ) = 4/5 := by norm_num [CONF_THRESHOLD]
        rw [hthr] at hacc
        linarith
      simp only [runModelMessage, hr, if_pos hnn]
  · intro q
    unfold getPitchHz PT_SLOPE PT_OFFSET
    norm_num

/-- Witness for C5: a single bin with uncertainty 1/2 has confidence 1/2,
below the threshold, so `(null, 0)` is posted. -/
theorem runModel_selection_witness :
    ([(1 : ℚ)].length = [(1/2 : ℚ)].length)
    ∧ (∀ pu ∈ [(1 : ℚ)].zip [(1/2 : ℚ)], 1 - pu.2 < CONF_THRESHOLD)
    ∧ runModelMessage [1] [1/2] = (none, 0) :=
  ⟨rfl, by intro pu hpu; simp at hpu; rw [hpu]; norm_num [CONF_THRESHOLD],
   (runModel_selection [1] [1/2] rfl).1
     (by intro pu hpu; simp at hpu; rw [hpu]; norm_num [CONF_THRESHOLD])⟩

/-! Section: theorems about the stateful segmenter call (claim C9). -/

/-- Counterexample to C9: with an empty history, `generateMidiSegments`
returns early and keeps the previously stored segment list, so the stored
result is NOT independent of prior segment state and an empty history does
not yield the empty list. -/
theorem generateMidiSegments_stale_counterexample :
    generateMidiSegments ⟨13/20, 3/4, 50, 100, 1/2⟩
        [⟨0, 1, 1, some 60, 1⟩] [] = [⟨0, 1, 1, some 60, 1⟩]
    ∧ generateMidiSegments ⟨13/20, 3/4, 50, 100, 1/2⟩
        [⟨0, 1, 1, some 60, 1⟩] [] ≠ [] := by
  constructor
  · rfl
  · decide

/-- C9 as amended: for histories of at least two points the stored segment
list is a pure function of the history and the configuration alone —
recomputation is deterministic and independent of the previously stored list —
while for shorter histories (empty or single-point) the call returns early and
leaves the previously stored list unchanged; in both cases a repeated run over
the same frozen history is idempotent. -/
theorem generateMidiSegments_pure :
    (∀ (cfg : SegConfig) (stored stored' : List MidiSegment)
        (history : List PitchHistoryPoint), 2 ≤ history.length →
        generateMidiSegments cfg stored history
          = generateMidiSegments cfg stored' history)
    ∧ (∀ (cfg : SegConfig) (stored : List MidiSegment)
        (history : List PitchHistoryPoint), 2 ≤ history.length →
        generateMidiSegments cfg stored history = segmentsOf cfg history)
    ∧ (∀ (cfg : SegConfig) (stored : List MidiSegment)
        (history : List PitchHistoryPoint), history.length < 2 →
        generateMidiSegments cfg stored history = stored)
    ∧ (∀ (cfg : SegConfig) (stored : List MidiSegment)
        (history : List PitchHistoryPoint),
        generateMidiSegments cfg (generateMidiSegments cfg stored history) history
          = generateMidiSegments cfg stored history) := by
  refine ⟨?_, ?_, ?_, ?_⟩
  · intro cfg stored stored' history hlen
    simp only [generateMidiSegments, if_neg (not_lt.2 hlen)]
  · intro cfg stored history hlen
    simp only [generateMidiSegments, if_neg (not_lt.2 hlen)]
  · intro cfg stored history hlen
    simp only [generateMidiSegments, if_pos hlen]
  · intro cfg stored history
    by_cases hlen : history.length < 2
    · simp only [generateMidiSegments, if_pos hlen]
    · simp only [generateMidiSegments, if_neg hlen]

/-- Witness for C9 as amended: a two-point history replaces a stale stored
list with the recomputed segments. -/
theorem generateMidiSegments_pure_witness :
    2 ≤ ([⟨0, none, 0, none⟩, ⟨50, none, 0, none⟩] : List PitchHistoryPoint).length
    ∧ generateMidiSegments ⟨13/20, 3/4, 50, 100, 1/2⟩ [⟨0, 1, 1, some 60, 1⟩]
        [⟨0, none, 0, none⟩, ⟨50, none, 0, none⟩]
      = segmentsOf ⟨13/20, 3/4, 50, 100, 1/2⟩
          [⟨0, none, 0, none⟩, ⟨50, none, 0, none⟩] :=
  ⟨by decide,
   generateMidiSegments_pure.2.1 ⟨13/20, 3/4, 50, 100, 1/2⟩ [⟨0, 1, 1, some 60, 1⟩]
     [⟨0, none, 0, none⟩, ⟨50, none, 0, none⟩] (by decide)⟩

/-! Section: theorems about pass 1 of the segmenter (claim C2).  The claim's
wording is restated as its own definitions (`voicedSpec`, `closeRunSpec`,
`segmentationSpec`) and proved equal to the source embedding. -/

/-- Spec wording for C2: a point is voiced iff its confidence is at least
`confidenceThreshold` and its continuous MIDI is present (finite). -/
def voicedSpec (cfg : SegConfig) (p : PitchHistoryPoint) : Prop :=
  cfg.confidenceThreshold ≤ p.confidence ∧ p.continuousMidi ≠ none

instance (cfg : SegConfig) (p : PitchHistoryPoint) : Decidable (voicedSpec cfg p) := by
  unfold voicedSpec
  infer_instance

/-- Spec wording for C2: a closed run emits a segment iff its duration (last
point time minus first point time) is at least `minNoteDuration`, with the
arithmetic means of the run's continuous MIDI values and confidences. -/
def closeRunSpec (cfg : SegConfig) (runStart : ℚ) (pts : List SegPoint)
    (acc : List MidiSegment) : List MidiSegment :=
  match pts.getLast? with
  | none => acc
  | some lastPt =>
    if cfg.minNoteDuration ≤ lastPt.x - runStart then
      acc ++ [{ startTime := runStart, endTime := lastPt.x,
                duration := lastPt.x - runStart,
                avgContinuousMidi :=
                  some ((pts.map SegPoint.continuousMidi).sum / (pts.length : ℚ)),
                avgConfidence := (pts.map SegPoint.confidence).sum / (pts.length : ℚ) }]
    else acc

/-- Spec wording for C2, pass 1: a voiced point is appended to the current
run iff its continuous MIDI differs from the last run point's by at most
`pitchChangeThreshold * 0.75`; otherwise the run is closed and a new run
starts at that point; an unvoiced point closes the run; the final run is
closed at end of history. -/
def segmentationSpec (cfg : SegConfig) :
    ℚ → List SegPoint → List MidiSegment → List PitchHistoryPoint → List MidiSegment
  | runStart, runPts, acc, [] => closeRunSpec cfg runStart runPts acc
  | runStart, runPts, acc, p :: rest =>
    if voicedSpec cfg p then
      let m := p.continuousMidi.getD 0
      match runPts.getLast? with
      | none =>
        segmentationSpec cfg p.x [⟨p.x, m, p.confidence⟩] acc rest
      | some lastPt =>
        if |m - lastPt.continuousMidi| ≤ cfg.pitchChangeThreshold * (3 / 4) then
          segmentationSpec cfg runStart (runPts ++ [⟨p.x, m, p.confidence⟩]) acc rest
        else
          segmentationSpec cfg p.x [⟨p.x, m, p.confidence⟩]
            (closeRunSpec cfg runStart runPts acc) rest
    else
      segmentationSpec cfg 0 [] (closeRunSpec cfg runStart runPts acc) rest

/-- The two close-run formulations coincide. -/
lemma closeRun_eq_spec (cfg : SegConfig) (runStart : ℚ) (pts : List SegPoint)
    (acc : List MidiSegment) :
    closeRun cfg runStart pts acc = closeRunSpec cfg runStart pts acc := by
  unfold closeRun closeRunSpec
  rfl

/-- The source's pass 1 equals the claim's formulation from every loop
state. -/
lemma segmentationPass_eq_spec (cfg : SegConfig) (history : List PitchHistoryPoint) :
    ∀ (runStart : ℚ) (runPts : List SegPoint) (acc : List MidiSegment),
      segmentationPass cfg runStart runPts acc history
        = segmentationSpec cfg runStart runPts acc history := by
  induction history with
  | nil =>
    intro runStart runPts acc
    simp only [segmentationPass, segmentationSpec]
    exact closeRun_eq_spec cfg runStart runPts acc
  | cons p rest ih =>
    intro runStart runPts acc
    simp only [segmentationPass, segmentationSpec]
    cases hm : p.continuousMidi with
    | none =>
      have hnv : ¬ voicedSpec cfg p := fun hv => hv.2 hm
      dsimp only
      rw [if_neg hnv, closeRun_eq_spec]
      exact ih _ _ _
    | some m =>
      by_cases hconf : cfg.confidenceThreshold ≤ p.confidence
      · have hv : voicedSpec cfg p := ⟨hconf, by rw [hm]; exact Option.some_ne_none m⟩
        dsimp only
        rw [if_pos hconf, if_pos hv, Option.getD_some]
        cases hl : runPts.getLast? with
        | none => exact ih _ _ _
        | some lastPt =>
          dsimp only
          rcases le_or_lt |m - lastPt.continuousMidi|
              (cfg.pitchChangeThreshold * (3 / 4)) with hle | hgt
          · rw [if_neg (not_lt.2 hle), if_pos hle]
            exact ih _ _ _
          · rw [if_pos hgt, if_neg (not_le.2 hgt), closeRun_eq_spec]
            exact ih _ _ _
      · have hnv : ¬ voicedSpec cfg p := fun hv => hconf hv.1
        dsimp only
        rw [if_neg hconf, if_neg hnv, closeRun_eq_spec]
        exact ih _ _ _

/-- C2: pass 1 of the segmenter over the full history equals the claim's
description (voicedness, the `<= pitchChangeThreshold * 0.75` continuation
rule, the `>= minNoteDuration` emission rule with arithmetic means), and at
the boundary a run spanning exactly `minNoteDuration = 50` is retained while
one spanning 49 is dropped. -/
theorem segmenter_pass1_matches_spec :
    (∀ (cfg : SegConfig) (history : List PitchHistoryPoint),
        potentialSegmentsOf cfg history = segmentationSpec cfg 0 [] [] history)
    ∧ potentialSegmentsOf ⟨13/20, 3/4, 50, 100, 1/2⟩
        [⟨0, none, 1, some 60⟩, ⟨50, none, 1, some 60⟩]
        = [⟨0, 50, 50, some 60, 1⟩]
    ∧ potentialSegmentsOf ⟨13/20, 3/4, 50, 100, 1/2⟩
        [⟨0, none, 1, some 60⟩, ⟨49, none, 1, some 60⟩] = [] := by
  refine ⟨?_,
    by norm_num [potentialSegmentsOf, segmentationPass, closeRun, List.getLast?],
    by norm_num [potentialSegmentsOf, segmentationPass, closeRun, List.getLast?]⟩
  intro cfg history
  exact segmentationPass_eq_spec cfg history 0 [] []

/-! Section: theorems about pass 2 of the segmenter (claim C3). -/

/-- The segment well-formedness invariant of the spec: the end is not before
the start and the duration is exactly their difference. -/
def SegOK (s : MidiSegment) : Prop :=
  s.startTime ≤ s.endTime ∧ s.duration = s.endTime - s.startTime

/-- Closing a run whose last point is not before the run start only emits
well-formed segments. -/
lemma closeRun_segOK (cfg : SegConfig) (runStart : ℚ) (pts : List SegPoint)
    (acc : List MidiSegment) (hacc : ∀ s ∈ acc, SegOK s)
    (hlast : ∀ lp, pts.getLast? = some lp → runStart ≤ lp.x) :
    ∀ s ∈ closeRun cfg runStart pts acc, SegOK s := by
  intro s hs
  unfold closeRun at hs
  cases hl : pts.getLast? with
  | none =>
    rw [hl] at hs
    exact hacc s hs
  | some lp =>
    rw [hl] at hs
    dsimp only at hs
    by_cases hd : cfg.minNoteDuration ≤ lp.x - runStart
    · rw [if_pos hd] at hs
      rcases List.mem_append.1 hs with hmem | hmem
      · exact hacc s hmem
      · rw [List.mem_singleton.1 hmem]
        exact ⟨hlast lp hl, rfl⟩
    · rw [if_neg hd] at hs
      exact hacc s hs

/-- Pass 1 over a history with non-decreasing timestamps emits only
well-formed segments, given that the accumulated segments are well-formed and
the current run's last point is bounded below by the run start and below by
every remaining point. -/
lemma segmentationPass_segOK (cfg : SegConfig) :
    ∀ (history : List PitchHistoryPoint),
      List.Pairwise (fun a b => a.x ≤ b.x) history →
      ∀ (runStart : ℚ) (runPts : List SegPoint) (acc : List MidiSegment),
        (∀ s ∈ acc, SegOK s) →
        (∀ lp, runPts.getLast? = some lp →
          runStart ≤ lp.x ∧ ∀ q ∈ history, lp.x ≤ q.x) →
        ∀ s ∈ segmentationPass cfg runStart runPts acc history, SegOK s := by
  intro history
  induction history with
  | nil =>
    intro _ runStart runPts acc hacc hlast
    simp only [segmentationPass]
    exact closeRun_segOK cfg runStart runPts acc hacc (fun lp hl => (hlast lp hl).1)
  | cons p rest ih =>
    intro hsort runStart runPts acc hacc hlast
    obtain ⟨hp, hrest⟩ := List.pairwise_cons.1 hsort
    have hclosed : ∀ s ∈ closeRun cfg runStart runPts acc, SegOK s :=
      closeRun_segOK cfg runStart runPts acc hacc (fun lp hl => (hlast lp hl).1)
    have hempty : ∀ lp, ([] : List SegPoint).getLast? = some lp →
        (0 : ℚ) ≤ lp.x ∧ ∀ q ∈ rest, lp.x ≤ q.x := by
      intro lp hl
      simp at hl
    simp only [segmentationPass]
    cases hm : p.continuousMidi with
    | none =>
      dsimp only
      exact ih hrest 0 [] _ hclosed hempty
    | some m =>
      dsimp only
      by_cases hconf : cfg.confidenceThreshold ≤ p.confidence
      · rw [if_pos hconf]
        cases hl : runPts.getLast? with
        | none =>
          dsimp only
          refine ih hrest p.x [⟨p.x, m, p.confidence⟩] acc hacc ?_
          intro lp hlp
          rw [show ([⟨p.x, m, p.confidence⟩] : List SegPoint).getLast?
              = some ⟨p.x, m, p.confidence⟩ from rfl] at hlp
          cases hlp
          exact ⟨le_refl _, hp⟩
        | some lastPt =>
          dsimp only
          obtain ⟨hrs, hbound⟩ := hlast lastPt hl
          have hpx : lastPt.x ≤ p.x := hbound p (List.mem_cons_self p rest)
          by_cases hjump :
              cfg.pitchChangeThreshold * (3 / 4) < |m - lastPt.continuousMidi|
          · rw [if_pos hjump]
            refine ih hrest p.x [⟨p.x, m, p.confidence⟩] _ hclosed ?_
            intro lp hlp
            rw [show ([⟨p.x, m, p.confidence⟩] : List SegPoint).getLast?
                = some ⟨p.x, m, p.confidence⟩ from rfl] at hlp
            cases hlp
            exact ⟨le_refl _, hp⟩
          · rw [if_neg hjump]
            refine ih hrest runStart (runPts ++ [⟨p.x, m, p.confidence⟩]) acc hacc ?_
            intro lp hlp
            rw [List.getLast?_concat] at hlp
            cases hlp
            exact ⟨le_trans hrs hpx, hp⟩
      · rw [if_neg hconf]
        exact ih hrest 0 [] _ hclosed hempty

/-- A successful merge of two well-formed segments is well-formed. -/
lemma mergeStep_segOK (cfg : SegConfig) (prev curr m : MidiSegment)
    (hp : SegOK prev) (hc : SegOK curr) (hm : mergeStep cfg prev curr = some m) :
    SegOK m := by
  unfold mergeStep at hm
  cases hpm : prev.avgContinuousMidi with
  | none =>
    rw [hpm] at hm
    exact absurd hm (by simp)
  | some pm =>
    cases hcm : curr.avgContinuousMidi with
    | none =>
      rw [hpm, hcm] at hm
      exact absurd hm (by simp)
    | some cm =>
      rw [hpm, hcm] at hm
      dsimp only at hm
      by_cases h1 : 0 < curr.startTime - prev.endTime
          ∧ curr.startTime - prev.endTime < cfg.maxGapForMerge
          ∧ |cm - pm| < cfg.pitchDiffForMerge * (3 / 4)
      · rw [if_pos h1] at hm
        by_cases h2 : 0 < prev.duration + curr.duration
        · rw [if_pos h2] at hm
          obtain ⟨hs1, hs2⟩ := hp
          obtain ⟨hc1, hc2⟩ := hc
          cases hm
          constructor
          · show prev.startTime ≤ curr.endTime
            have := h1.1
            linarith
          · show prev.duration + (curr.startTime - prev.endTime) + curr.duration
                = curr.endTime - prev.startTime
            rw [hs2, hc2]
            ring
        · rw [if_neg h2] at hm
          exact absurd hm (by simp)
      · rw [if_neg h1] at hm
        exact absurd hm (by simp)

/-- Pass 2 preserves segment well-formedness. -/
lemma mergePass_segOK (cfg : SegConfig) (segs : List MidiSegment)
    (hsegs : ∀ s ∈ segs, SegOK s) : ∀ s ∈ mergePass cfg segs, SegOK s := by
  have hstep : ∀ (l : List MidiSegment) (acc : List MidiSegment),
      (∀ s ∈ acc, SegOK s) → (∀ s ∈ l, SegOK s) →
      ∀ s ∈ l.foldl (fun acc curr =>
        match acc.getLast? with
        | none => [curr]
        | some prev =>
          match mergeStep cfg prev curr with
          | some merged => acc.dropLast ++ [merged]
          | none => acc ++ [curr]) acc, SegOK s := by
    intro l
    induction l with
    | nil =>
      intro acc hacc _
      simpa using hacc
    | cons c cs ihl =>
      intro acc hacc hl
      rw [List.foldl_cons]
      refine ihl _ ?_ (fun s hs => hl s (List.mem_cons_of_mem _ hs))
      intro s hs
      cases hgl : acc.getLast? with
      | none =>
        rw [hgl] at hs
        dsimp only at hs
        rw [List.mem_singleton.1 hs]
        exact hl c (List.mem_cons_self _ _)
      | some prev =>
        rw [hgl] at hs
        dsimp only at hs
        cases hms : mergeStep cfg prev c with
        | none =>
          rw [hms] at hs
          dsimp only at hs
          rcases List.mem_append.1 hs with hmem | hmem
          · exact hacc s hmem
          · rw [List.mem_singleton.1 hmem]
            exact hl c (List.mem_cons_self _ _)
        | some merged =>
          rw [hms] at hs
          dsimp only at hs
          rcases List.mem_append.1 hs with hmem | hmem
          · exact hacc s (List.mem_of_mem_dropLast hmem)
          · rw [List.mem_singleton.1 hmem]
            exact mergeStep_segOK cfg prev c merged
              (hacc prev (List.mem_of_mem_getLast? hgl))
              (hl c (List.mem_cons_self _ _)) hms
  cases segs with
  | nil =>
    simp [mergePass]
  | cons s0 rest =>
    intro s hs
    refine hstep rest [s0] ?_ (fun t ht => hsegs t (List.mem_cons_of_mem _ ht)) s hs
    intro t ht
    rw [List.mem_singleton.1 ht]
    exact hsegs s0 (List.mem_cons_self _ _)

/-- C3: a merge of the running last segment `prev` with the next closed
segment `curr` (both of positive duration, as produced by pass 1 with a
positive `minNoteDuration`) happens iff both averages are present, the gap
`curr.startTime - prev.endTime` lies strictly between `0` and
`maxGapForMerge`, and the pitch difference is below
`pitchDiffForMerge * 0.75`; the merged segment then keeps `prev.startTime`,
ends at `curr.endTime`, spans `prev.duration + gap + curr.duration`, and
carries the duration-weighted averages with weights `prev.duration` and
`curr.duration` (the gap excluded); consequently, over any history with
non-decreasing timestamps every final segment satisfies
`startTime <= endTime` and `duration = endTime - startTime`. -/
theorem segmenter_merge_rule :
    (∀ (cfg : SegConfig) (prev curr : MidiSegment),
        0 < prev.duration → 0 < curr.duration →
        ((mergeStep cfg prev curr).isSome ↔
          ∃ pm cm, prev.avgContinuousMidi = some pm
            ∧ curr.avgContinuousMidi = some cm
            ∧ 0 < curr.startTime - prev.endTime
            ∧ curr.startTime - prev.endTime < cfg.maxGapForMerge
            ∧ |cm - pm| < cfg.pitchDiffForMerge * (3 / 4)))
    ∧ (∀ (cfg : SegConfig) (prev curr : MidiSegment) (pm cm : ℚ),
        0 < prev.duration → 0 < curr.duration →
        prev.avgContinuousMidi = some pm → curr.avgContinuousMidi = some cm →
        0 < curr.startTime - prev.endTime →
        curr.startTime - prev.endTime < cfg.maxGapForMerge →
        |cm - pm| < cfg.pitchDiffForMerge * (3 / 4) →
        mergeStep cfg prev curr = some
          { startTime := prev.startTime, endTime := curr.endTime,
            duration := prev.duration + (curr.startTime - prev.endTime)
              + curr.duration,
            avgContinuousMidi := some ((pm * prev.duration + cm * curr.duration)
              / (prev.duration + curr.duration)),
            avgConfidence := (prev.avgConfidence * prev.duration
              + curr.avgConfidence * curr.duration)
              / (prev.duration + curr.duration) })
    ∧ (∀ (cfg : SegConfig) (history : List PitchHistoryPoint),
        List.Pairwise (fun a b => a.x ≤ b.x) history →
        ∀ s ∈ segmentsOf cfg history,
          s.startTime ≤ s.endTime ∧ s.duration = s.endTime - s.startTime) := by
  refine ⟨?_, ?_, ?_⟩
  · intro cfg prev curr hdp hdc
    unfold mergeStep
    cases hpm : prev.avgContinuousMidi with
    | none => simp
    | some pm =>
      cases hcm : curr.avgContinuousMidi with
      | none => simp
      | some cm =>
        dsimp only
        by_cases h1 : 0 < curr.startTime - prev.endTime
            ∧ curr.startTime - prev.endTime < cfg.maxGapForMerge
            ∧ |cm - pm| < cfg.pitchDiffForMerge * (3 / 4)
        · rw [if_pos h1, if_pos (by linarith : (0:ℚ) < prev.duration + curr.duration)]
          simp only [Option.isSome_some, true_iff]
          exact ⟨pm, cm, rfl, rfl, h1.1, h1.2.1, h1.2.2⟩
        · rw [if_neg h1]
          simp only [Option.isSome_none, Bool.false_eq_true, false_iff]
          rintro ⟨pm', cm', hpm', hcm', hg1, hg2, hg3⟩
          cases hpm'
          cases hcm'
          exact h1 ⟨hg1, hg2, hg3⟩
  · intro cfg prev curr pm cm hdp hdc hpm hcm hg1 hg2 hg3
    unfold mergeStep
    rw [hpm, hcm]
    dsimp only
    rw [if_pos ⟨hg1, hg2, hg3⟩,
      if_pos (by linarith : (0:ℚ) < prev.duration + curr.duration)]
  · intro cfg history hsort s hs
    have h1 : ∀ t ∈ potentialSegmentsOf cfg history, SegOK t := by
      refine segmentationPass_segOK cfg history hsort 0 [] [] (by simp) ?_
      intro lp hlp
      simp at hlp
    exact mergePass_segOK cfg _ h1 s hs

/-- Witness for C3: merging `[0,120]` at MIDI 60 with `[150,250]` at MIDI 60.1
across a 30 ms gap yields `[0,250]` with duration 250 and the 120/100
duration-weighted averages. -/
theorem segmenter_merge_rule_witness :
    (0 : ℚ) < 120 ∧ (0 : ℚ) < 100
    ∧ (0 : ℚ) < (150 : ℚ) - 120 ∧ (150 : ℚ) - 120 < 100
    ∧ |(601 : ℚ)/10 - 60| < (1/2 : ℚ) * (3 / 4)
    ∧ mergeStep ⟨13/20, 3/4, 50, 100, 1/2⟩
        ⟨0, 120, 120, some 60, 9/10⟩ ⟨150, 250, 100, some (601/10), 8/10⟩
      = some { startTime := 0, endTime := 250,
               duration := 120 + ((150 : ℚ) - 120) + 100,
               avgContinuousMidi := some ((60 * 120 + (601/10) * 100) / (120 + 100)),
               avgConfidence := ((9/10) * 120 + (8/10) * 100) / (120 + 100) } := by
  refine ⟨by norm_num, by norm_num, by norm_num, by norm_num, by norm_num [abs], ?_⟩
  exact segmenter_merge_rule.2.1 ⟨13/20, 3/4, 50, 100, 1/2⟩
    ⟨0, 120, 120, some 60, 9/10⟩ ⟨150, 250, 100, some (601/10), 8/10⟩ 60 (601/10)
    (by norm_num) (by norm_num) rfl rfl (by norm_num) (by norm_num)
    (by norm_num [abs])

end PitchDetector
